import Mathlib

/-!
Verification of the groupcache repository: a shallow embedding of the
consistent-hash ring (with prefix-table acceleration), the GetN ring
variant, the timestamp packing helpers, the expiration handler and the
gRPC peer pool, together with theorems settling the specification
claims about them.

Machine integers are modelled as `Nat`/`Int`; Go `uint32` hash values are
handled as naturals below `2^32`, Go `int64` as integers with explicit
two's-complement encoding where the byte representation matters.
-/

namespace Groupcache

/-! ## Little-endian 64-bit timestamps (part_006: packTimestamp, UnpackTimestamp) -/

/-- Little-endian byte encoding of a natural, `k` bytes.
Mirrors what `binary.Write(w, binary.LittleEndian, int64)` produces once the
int64 is reduced to its two's-complement bit pattern. -/
def natLE : Nat → Nat → List Nat
  | 0, _ => []
  | k + 1, n => (n % 256) :: natLE k (n / 256)

/-- Value of a little-endian byte list. -/
def leVal : List Nat → Nat
  | [] => 0
  | b :: bs => b + 256 * leVal bs

/-- The two's-complement bit pattern of an int64, as a natural below `2^64`. -/
def int64Pattern (t : Int) : Nat := (t % (2 ^ 64 : Int)).toNat

/-- Decode a two's-complement 64-bit pattern back to the signed value. -/
def int64OfPattern (n : Nat) : Int :=
  if n < 2 ^ 63 then (n : Int) else (n : Int) - 2 ^ 64

/-- Model of `packTimestamp` (part_006 lines 209–215): appends the 8-byte
little-endian encoding of `t` to `b`.  `binary.Write` to a `bytes.Buffer`
cannot fail, so no error case arises. -/
def packTimestamp (b : List Nat) (t : Int) : List Nat :=
  b ++ natLE 8 (int64Pattern t)

/-- Model of `getTimestamp` (part_006 lines 230–237): decode the last 8 bytes of `b`
as a little-endian int64.  Callers guarantee `len b ≥ 8`. -/
def getTimestamp (b : List Nat) : Int :=
  int64OfPattern (leVal (b.drop (b.length - 8)))

/-- Model of `UnpackTimestamp` (part_006 lines 220–228): when `len b ≥ 8`, split off
the trailing 8 bytes and decode them; otherwise return `(b, 0)` unchanged.
The error result is always `none`: reading 8 bytes from an 8-byte buffer
cannot fail. -/
def unpackTimestamp (b : List Nat) : List Nat × Int × Option String :=
  if 8 ≤ b.length then (b.take (b.length - 8), getTimestamp b, none)
  else (b, 0, none)

/-! ## Expiration handling (expiration.go) -/

/-- Errors surfaced by the expiration path. -/
inductive ExpErr where
  | decodeFail : ExpErr
  | reloadFail : ExpErr
deriving DecidableEq, Repr

/-- Model of `getTimestampByteView` (part_006 lines 239–249): when the view holds at
least 8 bytes, decode the trailing 8; otherwise `binary.Read` on the empty
zero view fails with EOF, surfaced as `ExpErr.decodeFail`. -/
def getTimestampOfValue (value : List Nat) : Except ExpErr Int :=
  if 8 ≤ value.length then .ok (getTimestamp value) else .error .decodeFail

/-- The expiration-relevant configuration of a Group:
`int64(g.expiration.Seconds())` and `int64(g.stalePeriod.Seconds())`,
i.e. the durations truncated to whole seconds. -/
structure GroupExp where
  expirationSec : Int
  stalePeriodSec : Int
deriving Repr

/-- Modelled from the spec: `loadOnMiss` is not among the source files (only
its call sites are).  Per spec §4.8 "Reloads always produce a fresh timestamp
via the time provider", a successful reload writes the regenerated content
packed with a fresh timestamp into its sink. -/
def reloadOutcome (content : List Nat) (freshNow : Int) : Except ExpErr (List Nat) :=
  .ok (packTimestamp content freshNow)

/-- Model of `handleExpiration` (expiration.go lines 114–148).  `now` is
`GetTime()`, `value` the cache-hit bytes, `reload` the outcome of
`loadOnMiss` (abstracted), and `backgroundWins` resolves the race in the
stale branch: `true` means the background reload beat the stale deadline.
The returned `.ok v` means `v` is written to the destination sink;
`.error e` means the error is returned and nothing is written. -/
def handleExpiration (g : GroupExp) (now : Int) (value : List Nat)
    (reload : Except ExpErr (List Nat)) (backgroundWins : Bool) :
    Except ExpErr (List Nat) :=
  match getTimestampOfValue value with
  | .error e => .error e
  | .ok timestamp =>
    let age := now - timestamp
    let expiredOffset := age - g.expirationSec
    if g.stalePeriodSec ≤ expiredOffset then
      reload
    else if 0 ≤ expiredOffset then
      if backgroundWins then reload else .ok value
    else
      .ok value

/-! ## Consistent-hash ring (consistenthash.go; part_007 is the same code
with `New replicas fn = NewConsistentHash replicas defaultHashExpansion fn`). -/

namespace ConsistentHash

/-- Model of the `Map` struct.  The Go `hashMap map[int]string` is modelled
as a total function with the zero value `""` for absent keys; `keys` is the
sorted slice of virtual-node hashes.  `replicas` is a Go `int`, so it may be
non-positive. -/
structure Map where
  hash : String → Nat
  replicas : Int
  prefixTableExpansion : Nat
  keys : List Nat
  hashMap : Nat → String
  prefixShift : Nat
  prefixTable : List String

/-- Model of `defaultHashExpansion` (part_007). -/
def defaultHashExpansion : Nat := 6

/-- Model of `New` / `NewConsistentHash`: a blank ring. -/
def Map.new (replicas : Int) (tableExpansion : Nat) (fn : String → Nat) : Map :=
  { hash := fn, replicas := replicas, prefixTableExpansion := tableExpansion,
    keys := [], hashMap := fun _ => "", prefixShift := 0, prefixTable := [] }

/-- Model of `IsEmpty`. -/
def Map.isEmpty (m : Map) : Bool := m.keys.length == 0

/-- The virtual-node insertion loop of `Add` for one name: for each
`i ∈ [0, replicas)` append `hash(itoa(i) + name)` to the key slice and
point the hash map at the name. -/
def insertName (hash : String → Nat) (replicas : Int)
    (st : List Nat × (Nat → String)) (name : String) : List Nat × (Nat → String) :=
  (List.range replicas.toNat).foldl
    (fun st2 i =>
      ((st2.1 ++ [hash (toString i ++ name)]),
        Function.update st2.2 (hash (toString i ++ name)) name))
    st

/-- The insertion loop of `Add` over all names. -/
def insertAll (hash : String → Nat) (replicas : Int)
    (st : List Nat × (Nat → String)) (names : List String) :
    List Nat × (Nat → String) :=
  names.foldl (insertName hash replicas) st

/-- Model of `bits.Len32` on its argument domain: the number of bits needed
to represent `x`, computed by structural recursion on a fuel of 32 (the
argument is a `uint32`, so 32 halvings reach zero).  `len32_eq_size` below
checks it against Mathlib's `Nat.size`. -/
def bitLenAux : Nat → Nat → Nat
  | 0, _ => 0
  | fuel + 1, x => if x = 0 then 0 else bitLenAux fuel (x / 2) + 1

/-- Model of `bits.Len32(uint32(len(keys) * prefixTableExpansion))`. -/
def len32 (x : Nat) : Nat := bitLenAux 32 x

/-- The prefix of hash `k` under right-shift `s`, as a Go `int`. -/
def pfxOf (s k : Nat) : Int := ((k >>> s : Nat) : Int)

/-- Model of the inner `for currentKeyPrefix == previousKeyPrefix` loop of
the prefix-table build: starting from index `idx`, repeatedly increment the
index; while it stays in range take the next key's prefix, on running off
the end wrap to index 0 with the sentinel prefix `T+1`; stop as soon as the
prefix differs from `prev`.  The fuel is an upper bound on the iteration
count; `Add` supplies `keys.length + 2`, which suffices for every state the
build reaches. -/
def whileWalk (ks : List Nat) (s T : Nat) (prev : Int) : Nat → Nat → Nat × Int
  | 0, idx => (idx, prev)
  | fuel + 1, idx =>
    if idx + 1 < ks.length then
      if pfxOf s (ks.getD (idx + 1) 0) = prev then whileWalk ks s T prev fuel (idx + 1)
      else (idx + 1, pfxOf s (ks.getD (idx + 1) 0))
    else
      if ((T : Int) + 1) = prev then whileWalk ks s T prev fuel 0
      else (0, (T : Int) + 1)

/-- Model of the `for i := range m.prefixTable` loop of `Add`, producing the
table entries for slots `i, i+1, …, i+n-1` from loop state
`(previousKeyPrefix, currentKeyIdx, currentKeyPrefix)`. -/
def buildLoop (ks : List Nat) (hm : Nat → String) (s T : Nat) :
    Nat → Nat → Int → Nat → Int → List String
  | _, 0, _, _, _ => []
  | i, n + 1, prev, idx, cur =>
    if prev < (i : Int) ∧ (i : Int) < cur then
      hm (ks.getD idx 0) :: buildLoop ks hm s T (i + 1) n prev idx cur
    else
      "" :: buildLoop ks hm s T (i + 1) n cur
        (whileWalk ks s T cur (ks.length + 2) idx).1
        (whileWalk ks s T cur (ks.length + 2) idx).2

/-- The whole prefix-table build for sorted keys `ks`, shift `s` and table
size `T`, with initial state `(-1, 0, ks[0] >> s)`. -/
def buildTable (ks : List Nat) (hm : Nat → String) (s T : Nat) : List String :=
  buildLoop ks hm s T 0 T (-1) 0 (pfxOf s (ks.getD 0 0))

/-- Model of `Add`.  Appends `replicas` virtual nodes per name, re-sorts the
key slice, and rebuilds the prefix table.  The build begins by reading
`m.keys[0]` (`m.keys[currentKeyIdx]`); when the key slice is empty that
read is out of range and Go panics, modelled as `none`. -/
def Map.add (m : Map) (names : List String) : Option Map :=
  let st := insertAll m.hash m.replicas (m.keys, m.hashMap) names
  let ks := st.1.insertionSort (· ≤ ·)
  match ks with
  | [] => none
  | _ :: _ =>
    let bits := len32 ((ks.length * m.prefixTableExpansion) % 2 ^ 32)
    some { m with
           keys := ks
           hashMap := st.2
           prefixShift := 32 - bits
           prefixTable := buildTable ks st.2 (32 - bits) (2 ^ bits) }

/-- Model of `Add` iterated over several calls. -/
def Map.addAll (m : Map) (parts : List (List String)) : Option Map :=
  parts.foldlM Map.add m

/-- Model of `sort.Search(len(keys), func(i) { keys[i] >= h })`: for a
sorted slice this is the least index whose key is `≥ h`, or the length when
there is none, which is exactly `List.findIdx`. -/
def sortSearch (ks : List Nat) (h : Nat) : Nat := ks.findIdx (fun k => h ≤ k)

/-- The binary-search tail of `Get`: find the first key `≥ h`, wrap the
index to 0 when the search ran off the end, and map the chosen key through
the hash map. -/
def binarySelect (ks : List Nat) (hm : Nat → String) (h : Nat) : String :=
  hm (ks.getD (if sortSearch ks h = ks.length then 0 else sortSearch ks h) 0)

/-- Model of `Get`. -/
def Map.get (m : Map) (key : String) : String :=
  if m.isEmpty then "" else
    if 0 < (m.prefixTable.getD (m.hash key >>> m.prefixShift) "").length then
      m.prefixTable.getD (m.hash key >>> m.prefixShift) ""
    else binarySelect m.keys m.hashMap (m.hash key)

/-- Spec-side realization of `Get` that only binary-searches, never
consulting the prefix table (spec §4.4, design note on prefix-table
acceleration). -/
def Map.getBinaryOnly (m : Map) (key : String) : String :=
  if m.isEmpty then "" else binarySelect m.keys m.hashMap (m.hash key)

/-- Spec-side ring owner of hash `h`: the member at the smallest
virtual-node hash `≥ h`, wrapping around to the smallest hash (the list
head, for sorted keys) when none exists. -/
def ringOwner (ks : List Nat) (hm : Nat → String) (h : Nat) : String :=
  hm ((ks.find? (fun k => h ≤ k)).getD (ks.headD 0))

/-- Spec-side test: does some key of `ks` fall in prefix slot `i`? -/
def slotOccupied (ks : List Nat) (s i : Nat) : Bool :=
  ks.any (fun k => k >>> s == i)

/-- Spec-side successor of slot `i`: the first key whose prefix is strictly
greater than `i`, wrapping to the head of the sorted key slice. -/
def slotSucc (ks : List Nat) (s i : Nat) : Nat :=
  (ks.find? (fun k => decide (i < k >>> s))).getD (ks.headD 0)

/-- The table entry the spec's words claim for slot `i` (C6, spec §4.4):
when all keys in the slot plus the ring successor map to the same member,
that member's name; otherwise the empty string. -/
def specSlotValue (ks : List Nat) (hm : Nat → String) (s i : Nat) : String :=
  if (ks.filter (fun k => k >>> s == i)).all (fun k => hm k == hm (slotSucc ks s i))
  then hm (slotSucc ks s i) else ""

/-- Structural well-formedness that `Add` (re-)establishes for the prefix
table: the shift and table are the build outputs for the current keys. -/
def Map.TableWF (m : Map) : Prop :=
  ∃ bits, bits = len32 ((m.keys.length * m.prefixTableExpansion) % 2 ^ 32) ∧
    m.prefixShift = 32 - bits ∧
    m.prefixTable = buildTable m.keys m.hashMap m.prefixShift (2 ^ bits)

/-- Well-formedness invariant of every reachable `Map`: the hash function
produces `uint32` values, the key slice is sorted with `uint32` entries,
and (once non-empty) the prefix table is the one `Add` builds. -/
def Map.WF (m : Map) : Prop :=
  (∀ str, m.hash str < 2 ^ 32) ∧ m.keys.Sorted (· ≤ ·) ∧
  (∀ k ∈ m.keys, k < 2 ^ 32) ∧
  ((m.keys = [] ∧ m.prefixTable = []) ∨ (m.keys ≠ [] ∧ m.TableWF))

/-- The maps reachable through the API: `New` (with a `uint32`-valued hash
function, as the Go type guarantees) followed by any sequence of
successful `Add` calls. -/
inductive Built : Map → Prop where
  | new : ∀ (replicas : Int) (tableExpansion : Nat) (fn : String → Nat),
      (∀ str, fn str < 2 ^ 32) → Built (Map.new replicas tableExpansion fn)
  | add : ∀ (m : Map) (names : List String) (m' : Map),
      Built m → m.add names = some m' → Built m'

/-- Invariant of the prefix-table build loop when it is about to emit the
entry for slot `i` with state `(prev, idx, cur)`: `prev` is below `i`, and
either `idx` is the first key index whose prefix is `≥ i` with `cur` that
key's prefix, or the walk has wrapped (`idx = 0`, `cur` the sentinel
`T+1`) because every key's prefix is below `i`. -/
def LoopInv (ks : List Nat) (s T i : Nat) (prev : Int) (idx : Nat) (cur : Int) : Prop :=
  prev < (i : Int) ∧
  ((idx < ks.length ∧ cur = pfxOf s (ks.getD idx 0) ∧ (i : Int) ≤ cur ∧
      ∀ j < idx, pfxOf s (ks.getD j 0) < (i : Int)) ∨
   (idx = 0 ∧ cur = (T : Int) + 1 ∧ ∀ j < ks.length, pfxOf s (ks.getD j 0) < (i : Int)))

/-- The list of virtual-node (hash, name) pairs `Add` inserts for the given
names, in insertion order. -/
def pairsOf (hash : String → Nat) (replicas : Int) (names : List String) :
    List (Nat × String) :=
  names.flatMap (fun name =>
    (List.range replicas.toNat).map (fun i => (hash (toString i ++ name), name)))

/-- Replaying a pair list as `hashMap` updates. -/
def applyPairs (hm : Nat → String) (ps : List (Nat × String)) : Nat → String :=
  ps.foldl (fun f p => Function.update f p.1 p.2) hm

/-- Decimal value of a string, reduced to `uint32`: the hash-function
override used by `TestHashing` in consistenthash_test.go ("returns easier
to reason about values — assumes the keys can be converted to an
integer"). -/
def fnDemo (str : String) : Nat :=
  (str.data.foldl (fun n c => n * 10 + (c.toNat - 48)) 0) % 2 ^ 32

/-- The ring of `TestHashing`: replicas 3, members "6", "4", "2" — virtual
nodes 2, 4, 6, 12, 14, 16, 22, 24, 26. -/
def mapDemo : Map :=
  ((Map.new 3 6 fnDemo).add ["6", "4", "2"]).getD (Map.new 3 6 fnDemo)

/-- A one-member ring: replicas 1, expansion 6, a constant hash. -/
def mapOneDemo : Map :=
  ((Map.new 1 6 (fun _ => 5)).add ["a"]).getD (Map.new 1 6 (fun _ => 5))

/-- Two rings over the same member set {"a", "b"} with a constant (fully
colliding) hash, built in opposite insertion orders. -/
def mapPermA : Map :=
  ((Map.new 1 6 (fun _ => 7)).addAll [["a"], ["b"]]).getD (Map.new 1 6 (fun _ => 7))

def mapPermB : Map :=
  ((Map.new 1 6 (fun _ => 7)).addAll [["b"], ["a"]]).getD (Map.new 1 6 (fun _ => 7))

/-- String length as a hash: distinct virtual-node strings of "a" and "bb"
get distinct hashes. -/
def fnLen (s : String) : Nat := s.length

/-- Two rings over {"a", "bb"} with the length hash, built with different
partitions into `Add` calls and in different orders. -/
def mapPermC : Map :=
  ((Map.new 1 6 fnLen).addAll [["a"], ["bb"]]).getD (Map.new 1 6 fnLen)

def mapPermD : Map :=
  ((Map.new 1 6 fnLen).addAll [["bb", "a"]]).getD (Map.new 1 6 fnLen)

end ConsistentHash

/-! ## The GetN ring variant (the consistent-hash code embedded in
src/lru/lru_test.go: keys, hashMap, Get, GetN, getKeyFromHash). -/

namespace RingGetN

/-- Model of that variant's `Map`: no prefix table.  The Go
`hashMap map[int]string` is an association list with distinct keys, so that
`len(m.hashMap)` (`ringLength`) is its length. -/
structure MapN where
  hash : String → Nat
  replicas : Int
  keys : List Nat
  hashMap : List (Nat × String)

/-- Go map read with zero value `""` for absent keys. -/
def lookup (l : List (Nat × String)) (h : Nat) : String :=
  ((l.find? (fun p => p.1 == h)).map (fun p => p.2)).getD ""

/-- Go map write: replace an existing binding or append a new one. -/
def insertA (l : List (Nat × String)) (h : Nat) (v : String) : List (Nat × String) :=
  if l.any (fun p => p.1 == h) then
    l.map (fun p => if p.1 == h then (p.1, v) else p)
  else l ++ [(h, v)]

/-- Model of `AcceptAny`. -/
def AcceptAny : List String → String → Bool := fun _ _ => true

/-- Model of `getKeyFromHash`: binary search for the first key `≥ hash`,
wrapping to index 0. -/
def getKeyFromHash (m : MapN) (h : Nat) : Nat :=
  let idx := m.keys.findIdx (fun k => h ≤ k)
  m.keys.getD (if idx = m.keys.length then 0 else idx) 0

/-- Model of the `for i := 1; len(out) < n && i < ringLength; i++` loop of
`GetN`; `rem` counts the remaining admissible iterations
(`ringLength - i`). -/
def getNLoop (m : MapN) (n : Int) (accept : List String → String → Bool) :
    Nat → Nat → List String → List String
  | _, 0, out => out
  | hashKey, rem + 1, out =>
    if (out.length : Int) < n then
      let hashKey2 := getKeyFromHash m (hashKey + 1)
      let res := lookup m.hashMap hashKey2
      getNLoop m n accept hashKey2 rem (if accept out res then out ++ [res] else out)
    else out

/-- Model of `GetN`. -/
def getN (m : MapN) (key : String) (n : Int)
    (accept : List String → String → Bool) : List String :=
  if m.keys.length = 0 ∨ n < 1 then [] else
    let h := m.hash key
    let hashKey := getKeyFromHash m h
    getNLoop m n accept hashKey (m.hashMap.length - 1) [lookup m.hashMap hashKey]

/-- Spec-side successor chain: the ring slots visited after `start`, each
obtained from the previous by `getKeyFromHash (· + 1)`. -/
def slotChain (m : MapN) : Nat → Nat → List Nat
  | _, 0 => []
  | start, j + 1 => getKeyFromHash m (start + 1) :: slotChain m (getKeyFromHash m (start + 1)) j

/-- Spec-side selection: feed candidates one by one through `accept`,
appending accepted ones, stopping exactly when `n` members have been chosen
or the candidates are exhausted. -/
def selectWalk (accept : List String → String → Bool) (n : Int) :
    List String → List String → List String
  | out, [] => out
  | out, c :: cs =>
    if (out.length : Int) < n then
      selectWalk accept n (if accept out c then out ++ [c] else out) cs
    else out

/-- Spec-side `GetN` as the claim states it: start from the primary member
owning the key, walk the successive ring slots in order (at most
`ringLength − 1` of them), append a candidate only when `accept` allows it,
stop when `n` members are chosen or the ring is exhausted. -/
def specGetN (m : MapN) (key : String) (n : Int)
    (accept : List String → String → Bool) : List String :=
  if m.keys.length = 0 ∨ n < 1 then [] else
    let primaryKey := getKeyFromHash m (m.hash key)
    selectWalk accept n [lookup m.hashMap primaryKey]
      ((slotChain m primaryKey (m.hashMap.length - 1)).map (lookup m.hashMap))

/-- The ring of `TestGetN` (consistenthash_test.go) after
`Add("6", "1337", "1236", "1723")` with replicas 1 and the
integer-value hash. -/
def mapNDemo : MapN :=
  { hash := fun s => if s = "1237" then 1237 else 0
    replicas := 1
    keys := [6, 1236, 1337, 1723]
    hashMap := [(6, "6"), (1236, "1236"), (1337, "1337"), (1723, "1723")] }

end RingGetN

/-! ## The gRPC peer pool (part_003: Pool.Set, Pool.PickPeer). -/

namespace Grpc

/-- Model of the grpc `Pool`: the consistent-hash ring of peers and the
`getters` map, modelled by the list of peer names it is keyed by; a lookup
of an absent peer yields Go's nil pointer, modelled as `none`. -/
structure Pool where
  self : String
  peers : ConsistentHash.Map
  getters : List String

/-- Model of `NewPoolOpts`: `consistenthash.New(replicas, fn)` (the
two-argument `New` of part_007, expansion `defaultHashExpansion`) and an
empty getters map. -/
def Pool.new (self : String) (replicas : Int) (fn : String → Nat) : Pool :=
  { self := self
    peers := ConsistentHash.Map.new replicas ConsistentHash.defaultHashExpansion fn
    getters := [] }

/-- Model of `Pool.Set`: adds the peers to the ring (never removing old
members) and replaces the getters map with one holding exactly the new
peer list. -/
def Pool.set (p : Pool) (peersList : List String) : Option Pool :=
  match p.peers.add peersList with
  | none => none
  | some m => some { p with peers := m, getters := peersList }

/-- Model of `Pool.PickPeer`: `(nil, false)` on an empty ring or when the
ring owner is `self`; otherwise `(getters[peer], true)` — where the getter
handle is nil (`none`) when `peer` is absent from the getters map. -/
def Pool.pickPeer (p : Pool) (key : String) : Option String × Bool :=
  if p.peers.isEmpty then (none, false)
  else if p.peers.get key ≠ p.self then
    ((if p.peers.get key ∈ p.getters then some (p.peers.get key) else none), true)
  else (none, false)

/-- A demo hash for the pool scenario: member "a" gets virtual node 10,
member "b" gets 20, every other string (in particular the looked-up key)
hashes to 1, so the key is owned by "a". -/
def fnPool (s : String) : Nat :=
  if s = "0a" then 10 else if s = "0b" then 20 else 1

/-- A pool whose first `Set` installs peer list ["a"] and whose second
`Set` installs ["b"]: the ring keeps both members but the getters map only
holds "b". -/
def poolDemo0 : Pool := Pool.new "z" 1 fnPool

def poolDemo1 : Pool := (poolDemo0.set ["a"]).getD poolDemo0

def poolDemo2 : Pool := (poolDemo1.set ["b"]).getD poolDemo1

end Grpc

end Groupcache

namespace Groupcache

/-! ## Theorems -/

/-- Little-endian decode of encode recovers the value modulo `256^k`. -/
theorem leVal_natLE (k : Nat) : ∀ n : Nat, leVal (natLE k n) = n % 256 ^ k := by
  induction k with
  | zero => intro n; simp [natLE, leVal, Nat.mod_one]
  | succ k ih =>
    intro n
    simp only [natLE, leVal, ih]
    have h1 : n % 256 ^ (k + 1) = n % 256 + 256 * (n / 256 % 256 ^ k) := by
      rw [pow_succ, mul_comm (256 ^ k) 256, Nat.mod_mul]
    omega

theorem natLE_length (k : Nat) : ∀ n : Nat, (natLE k n).length = k := by
  induction k with
  | zero => intro n; simp [natLE]
  | succ k ih => intro n; simp [natLE, ih]

theorem int64_roundtrip (t : Int) (h1 : -(2 ^ 63) ≤ t) (h2 : t < 2 ^ 63) :
    int64OfPattern (int64Pattern t) = t := by
  simp only [int64Pattern, int64OfPattern]
  split <;> omega

theorem int64Pattern_lt (t : Int) : int64Pattern t < 2 ^ 64 := by
  simp only [int64Pattern]
  omega

theorem packTimestamp_length (b : List Nat) (t : Int) :
    (packTimestamp b t).length = b.length + 8 := by
  simp [packTimestamp, natLE_length]

theorem getTimestamp_packTimestamp (b : List Nat) (t : Int)
    (h1 : -(2 ^ 63) ≤ t) (h2 : t < 2 ^ 63) :
    getTimestamp (packTimestamp b t) = t := by
  have hlen := packTimestamp_length b t
  simp only [getTimestamp, hlen, Nat.add_sub_cancel]
  have hdrop : (packTimestamp b t).drop b.length = natLE 8 (int64Pattern t) := by
    simp [packTimestamp, List.drop_left]
  rw [hdrop, leVal_natLE]
  have hpat : int64Pattern t < 256 ^ 8 := by
    have := int64Pattern_lt t
    norm_num at this ⊢
    omega
  rw [Nat.mod_eq_of_lt hpat]
  exact int64_roundtrip t h1 h2

/-- C5: for every byte slice `b` and int64 timestamp `t`, unpacking the
result of packing `b` with `t` returns exactly `(b, t)` with no error:
packing appends the 8-byte little-endian encoding of `t` and unpacking
splits it off again. -/
theorem c5_unpack_pack_roundtrip (b : List Nat) (t : Int)
    (h1 : -(2 ^ 63) ≤ t) (h2 : t < 2 ^ 63) :
    unpackTimestamp (packTimestamp b t) = (b, t, none) := by
  have hlen := packTimestamp_length b t
  simp only [unpackTimestamp, hlen]
  rw [if_pos (by omega)]
  have htake : (packTimestamp b t).take (b.length + 8 - 8) = b := by
    simp only [Nat.add_sub_cancel, packTimestamp]
    exact List.take_left b (natLE 8 (int64Pattern t))
  rw [htake, getTimestamp_packTimestamp b t h1 h2]

/-- Witness for C5 at a concrete input. -/
theorem c5_unpack_pack_roundtrip_witness :
    unpackTimestamp (packTimestamp [7, 8, 9] 1000) = ([7, 8, 9], 1000, none) :=
  c5_unpack_pack_roundtrip [7, 8, 9] 1000 (by norm_num) (by norm_num)

theorem getTimestampOfValue_packTimestamp (b : List Nat) (t : Int)
    (h1 : -(2 ^ 63) ≤ t) (h2 : t < 2 ^ 63) :
    getTimestampOfValue (packTimestamp b t) = .ok t := by
  have hlen := packTimestamp_length b t
  simp only [getTimestampOfValue, hlen]
  rw [if_pos (by omega), getTimestamp_packTimestamp b t h1 h2]

/-- C3: with expiration configured and a cache-hit value carrying an 8-byte
timestamp suffix, `handleExpiration` computes `age = now − timestamp` and
`Δ = age − expiration` (all in whole seconds); when `Δ < 0` it serves the
cached value unchanged (same bytes, same timestamp), and when
`Δ ≥ stalePeriod` it performs the synchronous reload and serves the
reload's result, which carries the fresh timestamp, never the cached
value. -/
theorem c3_handleExpiration_fresh_or_reload (g : GroupExp) (now ts freshNow : Int)
    (b content : List Nat) (w : Bool)
    (hts1 : -(2 ^ 63) ≤ ts) (hts2 : ts < 2 ^ 63) (hsp : 0 ≤ g.stalePeriodSec) :
    ((now - ts) - g.expirationSec < 0 →
      handleExpiration g now (packTimestamp b ts) (reloadOutcome content freshNow) w
        = .ok (packTimestamp b ts)) ∧
    (g.stalePeriodSec ≤ (now - ts) - g.expirationSec →
      handleExpiration g now (packTimestamp b ts) (reloadOutcome content freshNow) w
        = .ok (packTimestamp content freshNow)) := by
  have hget := getTimestampOfValue_packTimestamp b ts hts1 hts2
  constructor
  · intro hfresh
    simp only [handleExpiration, hget]
    rw [if_neg (by omega), if_neg (by omega)]
  · intro hstale
    simp only [handleExpiration, hget]
    rw [if_pos (by omega)]
    rfl

/-- Witness for C3 at concrete inputs: a fresh hit at `now = 100` with
timestamp `90`, expiration `300`; and an expired hit at `now = 700` with
timestamp `100`, expiration `300`, stale period `300`. -/
theorem c3_handleExpiration_fresh_or_reload_witness :
    (handleExpiration ⟨300, 300⟩ 100 (packTimestamp [1] 90)
        (reloadOutcome [2] 101) false = .ok (packTimestamp [1] 90)) ∧
    (handleExpiration ⟨300, 300⟩ 700 (packTimestamp [1] 100)
        (reloadOutcome [2] 701) false = .ok (packTimestamp [2] 701)) :=
  ⟨(c3_handleExpiration_fresh_or_reload ⟨300, 300⟩ 100 90 101 [1] [2] false
      (by norm_num) (by norm_num) (by norm_num)).1 (by norm_num),
   (c3_handleExpiration_fresh_or_reload ⟨300, 300⟩ 700 100 701 [1] [2] false
      (by norm_num) (by norm_num) (by norm_num)).2 (by norm_num)⟩

/-- C8: when a cache hit's stored value does not contain a valid 8-byte
timestamp suffix, the timestamp decode error is surfaced to the caller:
`handleExpiration` returns exactly the error produced by the timestamp
decode, and no value is written to the destination sink (`.ok` is never
produced). -/
theorem c8_handleExpiration_decode_error (g : GroupExp) (now : Int)
    (value : List Nat) (reload : Except ExpErr (List Nat)) (w : Bool)
    (hshort : value.length < 8) :
    getTimestampOfValue value = .error .decodeFail ∧
    handleExpiration g now value reload w = .error .decodeFail := by
  have hget : getTimestampOfValue value = .error .decodeFail := by
    simp only [getTimestampOfValue]
    rw [if_neg (by omega)]
  exact ⟨hget, by simp only [handleExpiration, hget]⟩

/-- Witness for C8 at a concrete input: a 3-byte cached value. -/
theorem c8_handleExpiration_decode_error_witness :
    getTimestampOfValue [1, 2, 3] = .error .decodeFail ∧
    handleExpiration ⟨300, 300⟩ 100 [1, 2, 3] (.ok []) true = .error .decodeFail :=
  c8_handleExpiration_decode_error ⟨300, 300⟩ 100 [1, 2, 3] (.ok []) true (by norm_num)

namespace ConsistentHash

theorem getD_eq_getElem (ks : List Nat) (i : Nat) (h : i < ks.length) :
    ks.getD i 0 = ks[i] := by
  rw [List.getD_eq_getElem?_getD, List.getElem?_eq_getElem h]
  rfl

theorem getD_mem (ks : List Nat) (i : Nat) (h : i < ks.length) : ks.getD i 0 ∈ ks := by
  rw [getD_eq_getElem ks i h]
  exact List.getElem_mem h

theorem sorted_getD_mono {ks : List Nat} (hs : ks.Sorted (· ≤ ·)) {i j : Nat}
    (hij : i ≤ j) (hj : j < ks.length) : ks.getD i 0 ≤ ks.getD j 0 := by
  rcases Nat.lt_or_ge i j with h | h
  · rw [getD_eq_getElem ks i (lt_trans h hj), getD_eq_getElem ks j hj]
    exact List.pairwise_iff_getElem.mp hs i j (lt_trans h hj) hj h
  · have hij2 : i = j := le_antisymm hij h
    subst hij2
    rfl

theorem shiftRight_mono (s : Nat) {a b : Nat} (h : a ≤ b) : a >>> s ≤ b >>> s := by
  simp only [Nat.shiftRight_eq_div_pow]
  exact Nat.div_le_div_right h

theorem lt_of_shiftRight_lt {s a b : Nat} (h : a >>> s < b >>> s) : a < b := by
  by_contra hc
  exact absurd (shiftRight_mono s (Nat.le_of_not_lt hc)) (Nat.not_le_of_lt h)

theorem shiftRight_lt_pow {k s b : Nat} (h : k < 2 ^ (s + b)) : k >>> s < 2 ^ b := by
  rw [Nat.shiftRight_eq_div_pow]
  apply Nat.div_lt_of_lt_mul
  rw [← pow_add]
  exact h

theorem pfxOf_mono (s : Nat) {a b : Nat} (h : a ≤ b) : pfxOf s a ≤ pfxOf s b := by
  simp only [pfxOf]
  exact_mod_cast shiftRight_mono s h

theorem find?_of_first (p : Nat → Bool) :
    ∀ (ks : List Nat) (idx : Nat), idx < ks.length → p (ks.getD idx 0) = true →
      (∀ j < idx, p (ks.getD j 0) = false) → ks.find? p = some (ks.getD idx 0) := by
  intro ks
  induction ks with
  | nil => intro idx h; simp at h
  | cons a l ih =>
    intro idx hlen hp hall
    cases idx with
    | zero =>
      simp only [List.getD_cons_zero] at hp ⊢
      exact List.find?_cons_of_pos l hp
    | succ k =>
      have ha : p a = false := by simpa using hall 0 (Nat.succ_pos k)
      rw [List.find?_cons_of_neg l (by simp [ha])]
      simp only [List.getD_cons_succ] at hp ⊢
      exact ih k (by simpa using hlen) hp
        (fun j hj => by simpa using hall (j + 1) (by omega))

theorem find?_none_getD (p : Nat → Bool) (ks : List Nat)
    (h : ∀ j < ks.length, p (ks.getD j 0) = false) : ks.find? p = none := by
  rw [List.find?_eq_none]
  intro x hx
  rcases List.getElem_of_mem hx with ⟨j, hj, rfl⟩
  rw [← getD_eq_getElem ks j hj]
  simp only [h j hj]
  exact Bool.false_ne_true

theorem whileWalk_spec (ks : List Nat) (s T : Nat) (prev : Int)
    (hprev : prev ≠ (T : Int) + 1) :
    ∀ (fuel idx : Nat), idx < ks.length → ks.length ≤ fuel + idx →
      ((whileWalk ks s T prev fuel idx).1 < ks.length ∧
        idx < (whileWalk ks s T prev fuel idx).1 ∧
        (whileWalk ks s T prev fuel idx).2
          = pfxOf s (ks.getD (whileWalk ks s T prev fuel idx).1 0) ∧
        (whileWalk ks s T prev fuel idx).2 ≠ prev ∧
        ∀ j, idx < j → j < (whileWalk ks s T prev fuel idx).1 →
          pfxOf s (ks.getD j 0) = prev) ∨
      ((whileWalk ks s T prev fuel idx).1 = 0 ∧
        (whileWalk ks s T prev fuel idx).2 = (T : Int) + 1 ∧
        ∀ j, idx < j → j < ks.length → pfxOf s (ks.getD j 0) = prev) := by
  intro fuel
  induction fuel with
  | zero => intro idx hidx hfuel; omega
  | succ fuel ih =>
    intro idx hidx hfuel
    by_cases hb : idx + 1 < ks.length
    · by_cases hc : pfxOf s (ks.getD (idx + 1) 0) = prev
      · have hw : whileWalk ks s T prev (fuel + 1) idx
            = whileWalk ks s T prev fuel (idx + 1) := by
          simp only [whileWalk, if_pos hb, if_pos hc]
        rw [hw]
        rcases ih (idx + 1) hb (by omega) with ⟨h1, h2, h3, h4, h5⟩ | ⟨h1, h2, h3⟩
        · left
          refine ⟨h1, by omega, h3, h4, fun j hj1 hj2 => ?_⟩
          by_cases he : j = idx + 1
          · rw [he]; exact hc
          · exact h5 j (by omega) hj2
        · right
          refine ⟨h1, h2, fun j hj1 hj2 => ?_⟩
          by_cases he : j = idx + 1
          · rw [he]; exact hc
          · exact h3 j (by omega) hj2
      · have hw : whileWalk ks s T prev (fuel + 1) idx
            = (idx + 1, pfxOf s (ks.getD (idx + 1) 0)) := by
          simp only [whileWalk, if_pos hb, if_neg hc]
        rw [hw]
        left
        exact ⟨hb, Nat.lt_succ_self idx, rfl, hc, fun j hj1 hj2 => by omega⟩
    · have hw : whileWalk ks s T prev (fuel + 1) idx = (0, (T : Int) + 1) := by
        simp only [whileWalk, if_neg hb]
        rw [if_neg (fun hh => hprev hh.symm)]
      rw [hw]
      right
      exact ⟨rfl, rfl, fun j hj1 hj2 => by omega⟩

theorem headD_eq_getD (ks : List Nat) : ks.headD 0 = ks.getD 0 0 := by
  cases ks <;> rfl

theorem buildLoop_getD (ks : List Nat) (hm : Nat → String) (s T : Nat)
    (hsort : ks.Sorted (· ≤ ·)) (hpfx : ∀ k ∈ ks, k >>> s < T) :
    ∀ (n i : Nat) (prev : Int) (idx : Nat) (cur : Int),
      i + n ≤ T → LoopInv ks s T i prev idx cur →
      ∀ j < n, (buildLoop ks hm s T i n prev idx cur).getD j ""
        = (if slotOccupied ks s (i + j) then "" else hm (slotSucc ks s (i + j))) := by
  intro n
  induction n with
  | zero => intro i prev idx cur hiT hinv j hj; omega
  | succ n ih =>
    intro i prev idx cur hiT hinv j hj
    obtain ⟨hprev, hrest⟩ := hinv
    rcases hrest with ⟨hl, hcur, hic, hbefore⟩ | ⟨hidx0, hcurT, hall⟩
    · by_cases hlt : (i : Int) < cur
      · -- live state, current prefix beyond slot i: the slot holds no key
        have hbranch : buildLoop ks hm s T i (n + 1) prev idx cur
            = hm (ks.getD idx 0) :: buildLoop ks hm s T (i + 1) n prev idx cur := by
          simp only [buildLoop]
          rw [if_pos ⟨hprev, hlt⟩]
        rw [hbranch]
        have hcur2 := hcur
        simp only [pfxOf] at hcur2
        have hnotocc : slotOccupied ks s i = false := by
          rw [slotOccupied, List.any_eq_false]
          intro k hk
          rcases List.getElem_of_mem hk with ⟨jj, hjj, rfl⟩
          rw [← getD_eq_getElem ks jj hjj]
          simp only [beq_iff_eq]
          rcases Nat.lt_or_ge jj idx with hcase | hcase
          · have hb2 := hbefore jj hcase
            simp only [pfxOf] at hb2
            omega
          · have hge : ks.getD idx 0 ≤ ks.getD jj 0 := sorted_getD_mono hsort hcase hjj
            have hm2 := pfxOf_mono s hge
            simp only [pfxOf] at hm2
            omega
        have hsucc : slotSucc ks s i = ks.getD idx 0 := by
          rw [slotSucc, find?_of_first _ ks idx hl ?_ ?_]
          · rfl
          · simp only [decide_eq_true_eq]
            omega
          · intro jj hjj
            have hb2 := hbefore jj hjj
            simp only [pfxOf] at hb2
            simp only [decide_eq_false_iff_not]
            omega
        cases j with
        | zero =>
          simp only [List.getD_cons_zero, Nat.add_zero, hnotocc, hsucc,
            Bool.false_eq_true, if_false]
        | succ j =>
          simp only [List.getD_cons_succ]
          have hinv2 : LoopInv ks s T (i + 1) prev idx cur := by
            refine ⟨by push_cast; omega,
              Or.inl ⟨hl, hcur, by push_cast; omega, fun jj hjj => ?_⟩⟩
            have hb2 := hbefore jj hjj
            simp only [pfxOf] at hb2 ⊢
            omega
          have hrec := ih (i + 1) prev idx cur (by omega) hinv2 j (by omega)
          have harr : i + 1 + j = i + (j + 1) := by omega
          rw [harr] at hrec
          exact hrec
      · -- live state, current prefix equals slot i: the slot holds a key
        have hceq : cur = (i : Int) := by omega
        have hbranch : buildLoop ks hm s T i (n + 1) prev idx cur
            = "" :: buildLoop ks hm s T (i + 1) n cur
                (whileWalk ks s T cur (ks.length + 2) idx).1
                (whileWalk ks s T cur (ks.length + 2) idx).2 := by
          simp only [buildLoop]
          rw [if_neg (fun hh => hlt hh.2)]
        rw [hbranch]
        have hcur2 := hcur
        rw [hceq] at hcur2
        simp only [pfxOf] at hcur2
        have hocc : slotOccupied ks s i = true := by
          rw [slotOccupied, List.any_eq_true]
          refine ⟨ks.getD idx 0, getD_mem ks idx hl, ?_⟩
          simp only [beq_iff_eq]
          omega
        have hcurne : cur ≠ (T : Int) + 1 := by
          have hk := hpfx (ks.getD idx 0) (getD_mem ks idx hl)
          rw [hcur]
          simp only [pfxOf]
          omega
        have hpost := whileWalk_spec ks s T cur hcurne (ks.length + 2) idx hl (by omega)
        cases j with
        | zero =>
          simp only [List.getD_cons_zero, Nat.add_zero, hocc, if_true]
        | succ j =>
          simp only [List.getD_cons_succ]
          have hinv2 : LoopInv ks s T (i + 1) cur
              (whileWalk ks s T cur (ks.length + 2) idx).1
              (whileWalk ks s T cur (ks.length + 2) idx).2 := by
            rcases hpost with ⟨w1lt, w1gt, w2eq, w2ne, wmid⟩ | ⟨w1z, w2T, wmid⟩
            · refine ⟨by rw [hceq]; push_cast; omega,
                Or.inl ⟨w1lt, w2eq, ?_, fun jj hjj => ?_⟩⟩
              · have hmono : pfxOf s (ks.getD idx 0)
                    ≤ pfxOf s (ks.getD (whileWalk ks s T cur (ks.length + 2) idx).1 0) :=
                  pfxOf_mono s (sorted_getD_mono hsort (le_of_lt w1gt) w1lt)
                rw [← hcur, ← w2eq] at hmono
                push_cast
                omega
              · rcases Nat.lt_or_ge jj idx with hc2 | hc2
                · have hb2 := hbefore jj hc2
                  simp only [pfxOf] at hb2 ⊢
                  omega
                · rcases Nat.eq_or_lt_of_le hc2 with he | hlt2
                  · rw [← he]
                    rw [← hcur, hceq]
                    push_cast
                    omega
                  · have hw2 := wmid jj hlt2 hjj
                    rw [hceq] at hw2
                    simp only [pfxOf] at hw2 ⊢
                    omega
            · refine ⟨by rw [hceq]; push_cast; omega,
                Or.inr ⟨w1z, w2T, fun jj hjj => ?_⟩⟩
              rcases Nat.lt_or_ge jj idx with hc2 | hc2
              · have hb2 := hbefore jj hc2
                simp only [pfxOf] at hb2 ⊢
                omega
              · rcases Nat.eq_or_lt_of_le hc2 with he | hlt2
                · rw [← he]
                  rw [← hcur, hceq]
                  push_cast
                  omega
                · have hw2 := wmid jj hlt2 hjj
                  rw [hceq] at hw2
                  simp only [pfxOf] at hw2 ⊢
                  omega
          have hrec := ih (i + 1) cur _ _ (by omega) hinv2 j (by omega)
          have harr : i + 1 + j = i + (j + 1) := by omega
          rw [harr] at hrec
          exact hrec
    · -- wrapped state: all keys lie before slot i
      have hbranch : buildLoop ks hm s T i (n + 1) prev idx cur
          = hm (ks.getD idx 0) :: buildLoop ks hm s T (i + 1) n prev idx cur := by
        simp only [buildLoop]
        rw [if_pos ⟨hprev, by rw [hcurT]; omega⟩]
      rw [hbranch]
      have hnotocc : slotOccupied ks s i = false := by
        rw [slotOccupied, List.any_eq_false]
        intro k hk
        rcases List.getElem_of_mem hk with ⟨jj, hjj, rfl⟩
        rw [← getD_eq_getElem ks jj hjj]
        simp only [beq_iff_eq]
        have hb2 := hall jj hjj
        simp only [pfxOf] at hb2
        omega
      have hsucc : slotSucc ks s i = ks.getD 0 0 := by
        rw [slotSucc, find?_none_getD]
        · rw [Option.getD_none, headD_eq_getD]
        · intro jj hjj
          have hb2 := hall jj hjj
          simp only [pfxOf] at hb2
          simp only [decide_eq_false_iff_not]
          omega
      cases j with
      | zero =>
        simp only [List.getD_cons_zero, Nat.add_zero, hnotocc, hsucc,
          Bool.false_eq_true, if_false, hidx0]
      | succ j =>
        simp only [List.getD_cons_succ]
        have hinv2 : LoopInv ks s T (i + 1) prev idx cur := by
          refine ⟨by push_cast; omega,
            Or.inr ⟨hidx0, hcurT, fun jj hjj => ?_⟩⟩
          have hb2 := hall jj hjj
          simp only [pfxOf] at hb2 ⊢
          omega
        have hrec := ih (i + 1) prev idx cur (by omega) hinv2 j (by omega)
        have harr : i + 1 + j = i + (j + 1) := by omega
        rw [harr] at hrec
        exact hrec

theorem buildLoop_length (ks : List Nat) (hm : Nat → String) (s T : Nat) :
    ∀ (n i : Nat) (prev : Int) (idx : Nat) (cur : Int),
      (buildLoop ks hm s T i n prev idx cur).length = n := by
  intro n
  induction n with
  | zero => intro i prev idx cur; rfl
  | succ n ih =>
    intro i prev idx cur
    simp only [buildLoop]
    by_cases h : prev < (i : Int) ∧ (i : Int) < cur
    · rw [if_pos h]
      simp [ih]
    · rw [if_neg h]
      simp [ih]

theorem buildTable_length (ks : List Nat) (hm : Nat → String) (s T : Nat) :
    (buildTable ks hm s T).length = T :=
  buildLoop_length ks hm s T T 0 (-1) 0 (pfxOf s (ks.getD 0 0))

/-- The prefix table built by `Add`, characterized slot by slot: a slot
containing some key's prefix is blank; an empty slot names the member of
the next key on the ring (wrapping to the first key). -/
theorem buildTable_getD (ks : List Nat) (hm : Nat → String) (s T : Nat)
    (hsort : ks.Sorted (· ≤ ·)) (hne : ks ≠ [])
    (hpfx : ∀ k ∈ ks, k >>> s < T) (i : Nat) (hi : i < T) :
    (buildTable ks hm s T).getD i ""
      = if slotOccupied ks s i then "" else hm (slotSucc ks s i) := by
  have hlen : 0 < ks.length := List.length_pos.mpr hne
  have hinv : LoopInv ks s T 0 (-1) 0 (pfxOf s (ks.getD 0 0)) := by
    refine ⟨by norm_num, Or.inl ⟨hlen, rfl, ?_, fun j hj => absurd hj (Nat.not_lt_zero j)⟩⟩
    simp only [pfxOf, Nat.cast_zero]
    exact Int.natCast_nonneg _
  have h := buildLoop_getD ks hm s T hsort hpfx T 0 (-1) 0
    (pfxOf s (ks.getD 0 0)) (by omega) hinv i hi
  rw [Nat.zero_add] at h
  rw [buildTable]
  exact h

theorem foldl_pair_fst {α : Type} (g : α → Nat) (u : (Nat → String) → α → (Nat → String)) :
    ∀ (l : List α) (st : List Nat × (Nat → String)),
      (l.foldl (fun st2 x => (st2.1 ++ [g x], u st2.2 x)) st).1 = st.1 ++ l.map g := by
  intro l
  induction l with
  | nil => intro st; simp
  | cons a l ih => intro st; simp [ih]

theorem foldl_pair_snd {α : Type} (g : α → Nat) (u : (Nat → String) → α → (Nat → String)) :
    ∀ (l : List α) (st : List Nat × (Nat → String)),
      (l.foldl (fun st2 x => (st2.1 ++ [g x], u st2.2 x)) st).2 = l.foldl u st.2 := by
  intro l
  induction l with
  | nil => intro st; rfl
  | cons a l ih => intro st; simp [ih]

theorem insertName_fst (f : String → Nat) (r : Int) (st : List Nat × (Nat → String))
    (name : String) :
    (insertName f r st name).1
      = st.1 ++ (List.range r.toNat).map (fun i => f (toString i ++ name)) :=
  foldl_pair_fst (fun i => f (toString i ++ name))
    (fun hm2 i => Function.update hm2 (f (toString i ++ name)) name) (List.range r.toNat) st

theorem insertName_snd (f : String → Nat) (r : Int) (st : List Nat × (Nat → String))
    (name : String) :
    (insertName f r st name).2
      = applyPairs st.2 ((List.range r.toNat).map
          (fun i => (f (toString i ++ name), name))) := by
  have h := foldl_pair_snd (fun i => f (toString i ++ name))
    (fun hm2 i => Function.update hm2 (f (toString i ++ name)) name) (List.range r.toNat) st
  refine h.trans ?_
  rw [applyPairs, List.foldl_map]

theorem insertAll_fst (f : String → Nat) (r : Int) :
    ∀ (names : List String) (st : List Nat × (Nat → String)),
      (insertAll f r st names).1 = st.1 ++ (pairsOf f r names).map Prod.fst := by
  intro names
  induction names with
  | nil => intro st; simp [insertAll, pairsOf]
  | cons a l ih =>
    intro st
    rw [insertAll, List.foldl_cons]
    have h1 : (insertAll f r (insertName f r st a) l).1
        = (insertName f r st a).1 ++ (pairsOf f r l).map Prod.fst := ih (insertName f r st a)
    rw [insertAll] at h1
    rw [h1, insertName_fst]
    simp only [pairsOf, List.flatMap_cons, List.map_append, List.append_assoc]
    congr 1
    congr 1
    simp [List.map_map, Function.comp]

theorem insertAll_snd (f : String → Nat) (r : Int) :
    ∀ (names : List String) (st : List Nat × (Nat → String)),
      (insertAll f r st names).2 = applyPairs st.2 (pairsOf f r names) := by
  intro names
  induction names with
  | nil => intro st; simp [insertAll, pairsOf, applyPairs]
  | cons a l ih =>
    intro st
    rw [insertAll, List.foldl_cons]
    have h1 : (insertAll f r (insertName f r st a) l).2
        = applyPairs (insertName f r st a).2 (pairsOf f r l) := ih (insertName f r st a)
    rw [insertAll] at h1
    rw [h1, insertName_snd]
    simp only [pairsOf, List.flatMap_cons, applyPairs, List.foldl_append]

theorem pairsOf_fst_bound (f : String → Nat) (r : Int) (names : List String)
    (hf : ∀ str, f str < 2 ^ 32) :
    ∀ k ∈ (pairsOf f r names).map Prod.fst, k < 2 ^ 32 := by
  intro k hk
  rcases List.mem_map.mp hk with ⟨p, hp, rfl⟩
  rcases List.mem_flatMap.mp hp with ⟨name, _, hmem⟩
  rcases List.mem_map.mp hmem with ⟨i, _, rfl⟩
  exact hf _

theorem Map.add_some (m : Map) (names : List String) (m' : Map)
    (h : m.add names = some m') :
    m'.hash = m.hash ∧ m'.replicas = m.replicas ∧
    m'.prefixTableExpansion = m.prefixTableExpansion ∧
    m'.keys = (insertAll m.hash m.replicas (m.keys, m.hashMap) names).1.insertionSort (· ≤ ·) ∧
    m'.hashMap = (insertAll m.hash m.replicas (m.keys, m.hashMap) names).2 ∧
    m'.keys ≠ [] ∧
    m'.prefixShift = 32 - len32 ((m'.keys.length * m'.prefixTableExpansion) % 2 ^ 32) ∧
    m'.prefixTable = buildTable m'.keys m'.hashMap m'.prefixShift
        (2 ^ len32 ((m'.keys.length * m'.prefixTableExpansion) % 2 ^ 32)) := by
  rcases hks : (insertAll m.hash m.replicas (m.keys, m.hashMap) names).1.insertionSort (· ≤ ·)
    with _ | ⟨a, l⟩
  · rw [Map.add, hks] at h
    simp at h
  · rw [Map.add, hks] at h
    simp only [Option.some.injEq] at h
    subst h
    exact ⟨rfl, rfl, rfl, rfl, rfl, by simp, rfl, rfl⟩

/-- Every reachable map satisfies the structural invariant. -/
theorem Built.wf {m : Map} (hb : Built m) : m.WF := by
  induction hb with
  | new replicas tableExpansion fn hfn =>
    exact ⟨hfn, List.sorted_nil, fun k hk => absurd hk (List.not_mem_nil k), Or.inl ⟨rfl, rfl⟩⟩
  | add m0 names m' hb0 hadd ih =>
    obtain ⟨hhash, _, _, hkeys, hhm, hne, hshift, htable⟩ := Map.add_some m0 names m' hadd
    obtain ⟨ihf, ihsort, ihbound, _⟩ := ih
    refine ⟨by rw [hhash]; exact ihf, ?_, ?_, Or.inr ⟨hne, _, rfl, hshift, htable⟩⟩
    · rw [hkeys]
      exact List.sorted_insertionSort (· ≤ ·) _
    · intro k hk
      rw [hkeys] at hk
      have hk2 := (List.perm_insertionSort (· ≤ ·) _).mem_iff.mp hk
      rw [insertAll_fst] at hk2
      rcases List.mem_append.mp hk2 with hk3 | hk3
      · exact ihbound k hk3
      · exact pairsOf_fst_bound m0.hash m0.replicas names ihf k hk3

theorem find?_findIdx_lt (p : Nat → Bool) :
    ∀ ks : List Nat, ks.findIdx p < ks.length →
      ks.find? p = some (ks.getD (ks.findIdx p) 0) := by
  intro ks
  induction ks with
  | nil => intro h; simp at h
  | cons a l ih =>
    intro h
    by_cases hp : p a
    · rw [List.find?_cons_of_pos l hp, List.findIdx_cons]
      simp [hp]
    · rw [List.find?_cons_of_neg l hp, List.findIdx_cons]
      rw [List.findIdx_cons] at h
      simp only [hp, cond_false] at h ⊢
      rw [List.getD_cons_succ]
      exact ih (by simpa using h)

theorem find?_findIdx_len (p : Nat → Bool) :
    ∀ ks : List Nat, ks.findIdx p = ks.length → ks.find? p = none := by
  intro ks
  induction ks with
  | nil => intro h; rfl
  | cons a l ih =>
    intro h
    by_cases hp : p a
    · rw [List.findIdx_cons] at h
      simp [hp] at h
    · rw [List.find?_cons_of_neg l hp]
      rw [List.findIdx_cons] at h
      simp only [hp, cond_false] at h
      exact ih (by simpa using h)

theorem isEmpty_false_ne_nil {m : Map} (hne : m.isEmpty = false) : m.keys ≠ [] := by
  intro hnil
  rw [Map.isEmpty, hnil] at hne
  simp at hne

/-- The binary-search tail computes the ring owner: the member at the
first (for a sorted slice: smallest) key `≥ h`, wrapping to the slice
head. -/
theorem binarySelect_eq_ringOwner (ks : List Nat) (hm : Nat → String) (h : Nat) :
    binarySelect ks hm h = ringOwner ks hm h := by
  rw [binarySelect, ringOwner, sortSearch]
  by_cases hlen : ks.findIdx (fun k => decide (h ≤ k)) = ks.length
  · rw [if_pos hlen, find?_findIdx_len _ _ hlen, Option.getD_none, headD_eq_getD]
  · have hlt : ks.findIdx (fun k => decide (h ≤ k)) < ks.length :=
      lt_of_le_of_ne (List.findIdx_le_length _) hlen
    rw [if_neg hlen, find?_findIdx_lt _ _ hlt, Option.getD_some]

theorem find?_congr_mem {p q : Nat → Bool} :
    ∀ ks : List Nat, (∀ k ∈ ks, p k = q k) → ks.find? p = ks.find? q := by
  intro ks
  induction ks with
  | nil => intro h; rfl
  | cons a l ih =>
    intro h
    have ha : p a = q a := h a (List.mem_cons_self a l)
    by_cases hp : p a
    · rw [List.find?_cons_of_pos l hp, List.find?_cons_of_pos l (ha ▸ hp)]
    · rw [List.find?_cons_of_neg l hp, List.find?_cons_of_neg l (fun hq => hp (by rw [ha]; exact hq))]
      exact ih (fun k hk => h k (List.mem_cons_of_mem a hk))

/-- On a slot containing no key prefix, selecting the first key strictly
beyond the slot is the same as selecting the first key `≥ h`, for any `h`
in the slot. -/
theorem slotSucc_eq_find_ge (ks : List Nat) (s : Nat) (h : Nat)
    (hocc : slotOccupied ks s (h >>> s) = false) :
    ks.find? (fun k => decide (h ≤ k)) = ks.find? (fun k => decide (h >>> s < k >>> s)) := by
  apply find?_congr_mem
  intro k hk
  have hkne : k >>> s ≠ h >>> s := by
    rw [slotOccupied, List.any_eq_false] at hocc
    have := hocc k hk
    simpa using this
  apply decide_eq_decide.mpr
  constructor
  · intro hle
    exact lt_of_le_of_ne (shiftRight_mono s hle) (Ne.symm hkne)
  · intro hlt
    exact le_of_lt (lt_of_shiftRight_lt hlt)

/-- When no key prefix occupies the slot of `h`, the binary-search result
is exactly the member stored for the slot's ring successor. -/
theorem binary_eq_slotSucc (ks : List Nat) (hm : Nat → String) (s h : Nat)
    (hocc : slotOccupied ks s (h >>> s) = false) :
    binarySelect ks hm h = hm (slotSucc ks s (h >>> s)) := by
  rw [binarySelect_eq_ringOwner, ringOwner, slotSucc,
    slotSucc_eq_find_ge ks s h hocc]

/-- For a well-formed non-empty map, `hash(k) >> prefixShift` is a valid
slot of the prefix table, whose size is `2^bits`. -/
theorem slot_lt_tableSize {bits : Nat} (hbits : bits ≤ 32) (h : Nat) (hh : h < 2 ^ 32) :
    h >>> (32 - bits) < 2 ^ bits := by
  apply shiftRight_lt_pow
  have : 32 - bits + bits = 32 := by omega
  rw [this]
  exact hh

theorem bitLenAux_le (fuel : Nat) : ∀ x : Nat, bitLenAux fuel x ≤ fuel := by
  induction fuel with
  | zero => intro x; exact le_refl 0
  | succ fuel ih =>
    intro x
    rw [bitLenAux]
    by_cases hx : x = 0
    · rw [if_pos hx]; omega
    · rw [if_neg hx]
      have := ih (x / 2)
      omega

theorem bits_le_32 (x : Nat) : len32 x ≤ 32 := bitLenAux_le 32 x

theorem bitLenAux_spec (fuel : Nat) :
    ∀ x : Nat, x < 2 ^ fuel →
      x < 2 ^ bitLenAux fuel x ∧ ∀ s, x < 2 ^ s → bitLenAux fuel x ≤ s := by
  induction fuel with
  | zero => intro x hx; interval_cases x; exact ⟨Nat.zero_lt_one, fun s _ => Nat.zero_le s⟩
  | succ fuel ih =>
    intro x hx
    rw [bitLenAux]
    by_cases hx0 : x = 0
    · rw [if_pos hx0]
      subst hx0
      exact ⟨Nat.zero_lt_one, fun s _ => Nat.zero_le s⟩
    · rw [if_neg hx0]
      have hhalf : x / 2 < 2 ^ fuel := by
        rw [pow_succ] at hx
        omega
      obtain ⟨h1, h2⟩ := ih (x / 2) hhalf
      constructor
      · rw [pow_succ]
        omega
      · intro s hs
        have hs0 : s ≠ 0 := by
          intro h0
          subst h0
          simp at hs
          omega
        have := h2 (s - 1) (by
          have hpow : 2 ^ s = 2 ^ (s - 1) * 2 := by
            rw [← pow_succ]
            congr 1
            omega
          rw [hpow] at hs
          omega)
        omega

/-- Sanity check of the `bits.Len32` model against Mathlib's `Nat.size`. -/
theorem len32_eq_size (x : Nat) (hx : x < 2 ^ 32) : len32 x = Nat.size x := by
  obtain ⟨h1, h2⟩ := bitLenAux_spec 32 x hx
  exact le_antisymm (h2 (Nat.size x) (Nat.lt_size_self x)) (Nat.size_le.mpr h1)

/-- `Get` agrees with the binary-search-only realization on every
well-formed map: a non-empty prefix-table entry always equals the
binary-search result. -/
theorem get_eq_getBinaryOnly (m : Map) (hwf : m.WF) (key : String) :
    m.get key = m.getBinaryOnly key := by
  obtain ⟨hf, hsort, hbound, htw⟩ := hwf
  by_cases hne : m.isEmpty
  · rw [Map.get, Map.getBinaryOnly, if_pos hne, if_pos hne]
  · have hne2 : m.isEmpty = false := by simpa using hne
    have hkne : m.keys ≠ [] := isEmpty_false_ne_nil hne2
    rcases htw with ⟨hnil, _⟩ | ⟨_, bits, hbits, hshift, htable⟩
    · exact absurd hnil hkne
    · have hble : bits ≤ 32 := hbits ▸ bits_le_32 _
      have hpfx : ∀ k ∈ m.keys, k >>> m.prefixShift < 2 ^ bits := by
        intro k hk
        rw [hshift]
        exact slot_lt_tableSize hble k (hbound k hk)
      have hslot : m.hash key >>> m.prefixShift < 2 ^ bits := by
        rw [hshift]
        exact slot_lt_tableSize hble _ (hf key)
      have hchar := buildTable_getD m.keys m.hashMap m.prefixShift (2 ^ bits)
        hsort hkne hpfx (m.hash key >>> m.prefixShift) hslot
      rw [Map.getBinaryOnly, if_neg (by simp [hne2])]
      rw [Map.get, if_neg (by simp [hne2]), htable, hchar]
      by_cases hocc : slotOccupied m.keys m.prefixShift (m.hash key >>> m.prefixShift)
      · rw [if_pos hocc]
        simp only [String.length_empty, lt_self_iff_false, if_false]
      · rw [if_neg hocc]
        by_cases hval : 0 < (m.hashMap (slotSucc m.keys m.prefixShift
            (m.hash key >>> m.prefixShift))).length
        · rw [if_pos hval]
          exact (binary_eq_slotSucc m.keys m.hashMap m.prefixShift (m.hash key)
            (by simpa using hocc)).symm
        · rw [if_neg hval]

theorem sorted_head_min {ks : List Nat} (hsort : ks.Sorted (· ≤ ·)) :
    ∀ k ∈ ks, ks.headD 0 ≤ k := by
  cases ks with
  | nil => intro k hk; simp at hk
  | cons a l =>
    intro k hk
    rcases List.mem_cons.mp hk with rfl | hk2
    · exact le_refl k
    · exact List.rel_of_sorted_cons hsort k hk2

theorem sorted_find?_min {h : Nat} :
    ∀ (ks : List Nat), ks.Sorted (· ≤ ·) →
      ∀ k0, ks.find? (fun k => decide (h ≤ k)) = some k0 →
      ∀ k ∈ ks, h ≤ k → k0 ≤ k := by
  intro ks
  induction ks with
  | nil => intro _ k0 hf; simp at hf
  | cons a l ih =>
    intro hs k0 hf k hk hle
    by_cases hp : h ≤ a
    · rw [List.find?_cons_of_pos l (by simpa using hp)] at hf
      obtain rfl : a = k0 := by simpa using hf
      rcases List.mem_cons.mp hk with rfl | hk2
      · exact le_refl k
      · exact List.rel_of_sorted_cons hs k hk2
    · rw [List.find?_cons_of_neg l (by simpa using hp)] at hf
      rcases List.mem_cons.mp hk with rfl | hk2
      · exact absurd hle hp
      · exact ih hs.of_cons k0 hf k hk2 hle

theorem headD_mem {ks : List Nat} (hne : ks ≠ []) : ks.headD 0 ∈ ks := by
  cases ks with
  | nil => exact absurd rfl hne
  | cons a l => exact List.mem_cons_self a l

/-- C1: on every reachable non-empty map, `Get(k)` returns the member name
stored for the virtual-node hash selected by `ringOwner`; that selected
hash is the smallest entry of the sorted keys slice that is `≥ hash(k)`
(`find?` returns an element `≥ hash(k)` minimal among them), and when no
such entry exists the selection wraps to the head of the slice, the
smallest hash of all. -/
theorem c1_get_returns_ring_owner (m : Map) (hb : Built m) (key : String)
    (hne : m.isEmpty = false) :
    m.get key = ringOwner m.keys m.hashMap (m.hash key) ∧
    (∀ k0, m.keys.find? (fun k => decide (m.hash key ≤ k)) = some k0 →
      k0 ∈ m.keys ∧ m.hash key ≤ k0 ∧ ∀ k ∈ m.keys, m.hash key ≤ k → k0 ≤ k) ∧
    (m.keys.find? (fun k => decide (m.hash key ≤ k)) = none →
      m.keys.headD 0 ∈ m.keys ∧ ∀ k ∈ m.keys, m.keys.headD 0 ≤ k) := by
  have hwf := hb.wf
  obtain ⟨hf, hsort, hbound, htw⟩ := hwf
  refine ⟨?_, ?_, ?_⟩
  · rw [get_eq_getBinaryOnly m ⟨hf, hsort, hbound, htw⟩ key,
      Map.getBinaryOnly, if_neg (by simp [hne])]
    exact binarySelect_eq_ringOwner m.keys m.hashMap (m.hash key)
  · intro k0 hf0
    exact ⟨List.mem_of_find?_eq_some hf0,
      by simpa using List.find?_some hf0,
      sorted_find?_min m.keys hsort k0 hf0⟩
  · intro _
    exact ⟨headD_mem (isEmpty_false_ne_nil hne), sorted_head_min hsort⟩

/-- Witness for C1: the `TestHashing` ring; key "27" hashes to 27, beyond
every virtual node, so the lookup wraps around to the smallest virtual
node 2, owned by member "2". -/
theorem c1_get_returns_ring_owner_witness :
    mapDemo.isEmpty = false ∧
    mapDemo.get "27" = ringOwner mapDemo.keys mapDemo.hashMap (mapDemo.hash "27") ∧
    mapDemo.get "27" = "2" := by
  have hb : Built mapDemo :=
    Built.add (Map.new 3 6 fnDemo) ["6", "4", "2"] mapDemo
      (Built.new 3 6 fnDemo (fun str => Nat.mod_lt _ (by norm_num))) rfl
  exact ⟨rfl, (c1_get_returns_ring_owner mapDemo hb "27" rfl).1, by decide⟩

/-- C2: on every reachable map, the prefix-table-accelerated `Get` agrees
with the plain binary-search realization: a non-empty prefix-table entry
for the key's slot always equals the binary-search answer, and `Get`
itself is observationally equal to the binary-search-only `Get`. -/
theorem c2_get_eq_binary_only (m : Map) (hb : Built m) (key : String) :
    (m.prefixTable.getD (m.hash key >>> m.prefixShift) "" ≠ "" →
      m.prefixTable.getD (m.hash key >>> m.prefixShift) ""
        = m.getBinaryOnly key) ∧
    m.get key = m.getBinaryOnly key := by
  have hwf := hb.wf
  obtain ⟨hf, hsort, hbound, htw⟩ := hwf
  refine ⟨?_, get_eq_getBinaryOnly m ⟨hf, hsort, hbound, htw⟩ key⟩
  intro hentry
  rcases htw with ⟨hnil, htnil⟩ | ⟨hkne, bits, hbits, hshift, htable⟩
  · rw [htnil] at hentry
    simp at hentry
  · have hne2 : m.isEmpty = false := by
      rw [Map.isEmpty]
      simpa using hkne
    have hble : bits ≤ 32 := hbits ▸ bits_le_32 _
    have hpfx : ∀ k ∈ m.keys, k >>> m.prefixShift < 2 ^ bits := by
      intro k hk
      rw [hshift]
      exact slot_lt_tableSize hble k (hbound k hk)
    have hslot : m.hash key >>> m.prefixShift < 2 ^ bits := by
      rw [hshift]
      exact slot_lt_tableSize hble _ (hf key)
    have hchar := buildTable_getD m.keys m.hashMap m.prefixShift (2 ^ bits)
      hsort hkne hpfx (m.hash key >>> m.prefixShift) hslot
    rw [htable, hchar] at hentry ⊢
    by_cases hocc : slotOccupied m.keys m.prefixShift (m.hash key >>> m.prefixShift)
    · rw [if_pos hocc] at hentry
      exact absurd rfl hentry
    · rw [if_neg hocc]
      rw [Map.getBinaryOnly, if_neg (by simp [hne2])]
      exact (binary_eq_slotSucc m.keys m.hashMap m.prefixShift (m.hash key)
        (by simpa using hocc)).symm

/-- Witness for C2: on the `TestHashing` ring, key "11" (hash 11, slot 0)
falls in an occupied slot, so the table is blank there and both sides
binary-search to member "2"; the table entry for the slot of key "40"
(hash 40) is "2" and equals the binary-search answer. -/
theorem c2_get_eq_binary_only_witness :
    (mapDemo.prefixTable.getD (mapDemo.hash "40" >>> mapDemo.prefixShift) "" ≠ "" →
      mapDemo.prefixTable.getD (mapDemo.hash "40" >>> mapDemo.prefixShift) ""
        = mapDemo.getBinaryOnly "40") ∧
    mapDemo.get "40" = mapDemo.getBinaryOnly "40" := by
  have hb : Built mapDemo :=
    Built.add (Map.new 3 6 fnDemo) ["6", "4", "2"] mapDemo
      (Built.new 3 6 fnDemo (fun str => Nat.mod_lt _ (by norm_num))) rfl
  exact c2_get_eq_binary_only mapDemo hb "40"

/-- C6 counterexample: the one-member ring `mapOneDemo` has a single
virtual-node hash 5 with prefix slot 0; every hash in slot 0 plus the ring
successor (hash 5 itself, wrapping) maps to the same member "a", so the
claim as stated demands `prefixTable[0] = "a"`; the code stores the empty
string for every occupied slot, even a uniform one. -/
theorem c6_counterexample :
    specSlotValue mapOneDemo.keys mapOneDemo.hashMap mapOneDemo.prefixShift 0 = "a" ∧
    mapOneDemo.prefixTable.getD 0 "" = "" ∧
    mapOneDemo.prefixTable.getD 0 ""
      ≠ specSlotValue mapOneDemo.keys mapOneDemo.hashMap mapOneDemo.prefixShift 0 := by
  refine ⟨by decide, by decide, by decide⟩

/-- C6 amended: in the prefix table built by `Add`, slot `i` stores the
member of the immediately succeeding virtual-node hash in ring order
(wrapping to the first) when no virtual-node hash has top-P bits equal to
`i`; otherwise — whenever any hash falls in the slot, even if the whole
slot and its successor map to one member — it stores the empty string. -/
theorem c6_amended_table_characterization (m : Map) (hb : Built m)
    (hne : m.keys ≠ []) (i : Nat) (hi : i < m.prefixTable.length) :
    m.prefixTable.getD i ""
      = if slotOccupied m.keys m.prefixShift i then ""
        else m.hashMap (slotSucc m.keys m.prefixShift i) := by
  have hwf := hb.wf
  obtain ⟨hf, hsort, hbound, htw⟩ := hwf
  rcases htw with ⟨hnil, _⟩ | ⟨_, bits, hbits, hshift, htable⟩
  · exact absurd hnil hne
  · have hble : bits ≤ 32 := hbits ▸ bits_le_32 _
    have hpfx : ∀ k ∈ m.keys, k >>> m.prefixShift < 2 ^ bits := by
      intro k hk
      rw [hshift]
      exact slot_lt_tableSize hble k (hbound k hk)
    have hiT : i < 2 ^ bits := by
      rw [htable, buildTable_length] at hi
      exact hi
    rw [htable]
    exact buildTable_getD m.keys m.hashMap m.prefixShift (2 ^ bits)
      hsort hne hpfx i hiT

/-- Witness for C6 amended: slot 0 of the `TestHashing` ring is occupied
(all nine virtual nodes have prefix 0 under shift 26), so it is blank;
slot 1 is unoccupied and stores the wrap-around successor's member "2". -/
theorem c6_amended_table_characterization_witness :
    (mapDemo.prefixTable.getD 0 ""
      = if slotOccupied mapDemo.keys mapDemo.prefixShift 0 then ""
        else mapDemo.hashMap (slotSucc mapDemo.keys mapDemo.prefixShift 0)) ∧
    (mapDemo.prefixTable.getD 1 ""
      = if slotOccupied mapDemo.keys mapDemo.prefixShift 1 then ""
        else mapDemo.hashMap (slotSucc mapDemo.keys mapDemo.prefixShift 1)) ∧
    mapDemo.prefixTable.getD 0 "" = "" ∧ mapDemo.prefixTable.getD 1 "" = "2" := by
  have hb : Built mapDemo :=
    Built.add (Map.new 3 6 fnDemo) ["6", "4", "2"] mapDemo
      (Built.new 3 6 fnDemo (fun str => Nat.mod_lt _ (by norm_num))) rfl
  exact ⟨c6_amended_table_characterization mapDemo hb (by decide) 0 (by decide),
    c6_amended_table_characterization mapDemo hb (by decide) 1 (by decide),
    by decide, by decide⟩

theorem flatMap_const_nil {α β : Type} :
    ∀ l : List α, (l.flatMap (fun _ => ([] : List β))) = [] := by
  intro l
  induction l with
  | nil => rfl
  | cons a l2 ih => simp [ih]

theorem pairsOf_nonpos (f : String → Nat) {r : Int} (hr : r ≤ 0) (names : List String) :
    pairsOf f r names = [] := by
  rw [pairsOf]
  have h0 : r.toNat = 0 := Int.toNat_of_nonpos hr
  simp only [h0, List.range_zero, List.map_nil]
  exact flatMap_const_nil names

theorem add_none_iff (m : Map) (names : List String) :
    m.add names = none
      ↔ (insertAll m.hash m.replicas (m.keys, m.hashMap) names).1 = [] := by
  have hperm := List.perm_insertionSort (· ≤ ·)
    (insertAll m.hash m.replicas (m.keys, m.hashMap) names).1
  rcases hks : (insertAll m.hash m.replicas (m.keys, m.hashMap) names).1.insertionSort (· ≤ ·)
    with _ | ⟨a, l⟩
  · rw [hks] at hperm
    constructor
    · intro _
      exact hperm.symm.eq_nil
    · intro _
      rw [Map.add, hks]
  · rw [hks] at hperm
    constructor
    · intro hnone
      rw [Map.add, hks] at hnone
      simp at hnone
    · intro hnil
      rw [hnil] at hperm
      have := hperm.eq_nil
      simp at this

/-- C9: `Add` is not total.  Whenever the map has at least one replica per
name and some name was ever supplied (now or earlier), the rebuilt key
slice is non-empty and the prefix-table build reads `keys[currentKeyIdx]`
in bounds, so `Add` succeeds; but `Add` with zero names on a map whose key
slice is empty, and any `Add` on a map with `replicas ≤ 0` and no prior
keys, leaves the key slice empty and the build's initial `m.keys[0]` read
is out of range — a Go panic, modelled as `none`. -/
theorem c9_add_not_total :
    (∀ (m : Map) (names : List String), 1 ≤ m.replicas →
      (names ≠ [] ∨ m.keys ≠ []) → (m.add names).isSome = true) ∧
    (∀ (m : Map) (names : List String), m.replicas ≤ 0 → m.keys = [] →
      m.add names = none) ∧
    (∀ m : Map, m.keys = [] → m.add [] = none) := by
  refine ⟨?_, ?_, ?_⟩
  · intro m names hr hne
    rw [Option.isSome_iff_ne_none]
    intro hnone
    rw [add_none_iff, insertAll_fst] at hnone
    rcases List.append_eq_nil.mp hnone with ⟨hkeys, hpairs⟩
    rcases hne with hnames | hknil
    · rcases names with _ | ⟨a, rest⟩
      · exact hnames rfl
      · rw [List.map_eq_nil_iff, pairsOf] at hpairs
        simp only [List.flatMap_cons, List.append_eq_nil, List.map_eq_nil_iff,
          List.range_eq_nil] at hpairs
        omega
    · exact hknil hkeys
  · intro m names hr hk
    rw [add_none_iff, insertAll_fst, hk]
    rw [List.map_eq_nil_iff.mpr (pairsOf_nonpos m.hash hr names)]
    rfl
  · intro m hk
    rw [add_none_iff, insertAll_fst, hk]
    rfl

/-- Witness for C9: with one replica, adding "a" to a fresh map succeeds;
adding no names to a fresh map panics; with zero replicas, adding "a" to a
fresh map panics. -/
theorem c9_add_not_total_witness :
    ((Map.new 1 6 (fun _ => 5)).add ["a"]).isSome = true ∧
    (Map.new 1 6 (fun _ => 5)).add [] = none ∧
    (Map.new 0 6 (fun _ => 5)).add ["a"] = none :=
  ⟨c9_add_not_total.1 (Map.new 1 6 (fun _ => 5)) ["a"] (by norm_num [Map.new])
      (Or.inl (by simp)),
   c9_add_not_total.2.2 (Map.new 1 6 (fun _ => 5)) rfl,
   c9_add_not_total.2.1 (Map.new 0 6 (fun _ => 5)) ["a"] (by norm_num [Map.new]) rfl⟩

theorem Map.eq_of_fields {m1 m2 : Map} (h1 : m1.hash = m2.hash)
    (h2 : m1.replicas = m2.replicas) (h3 : m1.prefixTableExpansion = m2.prefixTableExpansion)
    (h4 : m1.keys = m2.keys) (h5 : m1.hashMap = m2.hashMap)
    (h6 : m1.prefixShift = m2.prefixShift) (h7 : m1.prefixTable = m2.prefixTable) :
    m1 = m2 := by
  cases m1
  cases m2
  rw [Map.mk.injEq]
  exact ⟨h1, h2, h3, h4, h5, h6, h7⟩

theorem pairsOf_append (f : String → Nat) (r : Int) (l1 l2 : List String) :
    pairsOf f r (l1 ++ l2) = pairsOf f r l1 ++ pairsOf f r l2 :=
  List.flatMap_append l1 l2 _

theorem applyPairs_append (hm : Nat → String) (ps1 ps2 : List (Nat × String)) :
    applyPairs hm (ps1 ++ ps2) = applyPairs (applyPairs hm ps1) ps2 :=
  List.foldl_append _ hm ps1 ps2

theorem mem_pairsOf {f : String → Nat} {r : Int} {names : List String} {p : Nat × String} :
    p ∈ pairsOf f r names
      ↔ ∃ name ∈ names, ∃ i, i < r.toNat ∧ p = (f (toString i ++ name), name) := by
  simp only [pairsOf, List.mem_flatMap, List.mem_map, List.mem_range]
  constructor
  · rintro ⟨name, hn, i, hi, rfl⟩
    exact ⟨name, hn, i, hi, rfl⟩
  · rintro ⟨name, hn, i, hi, rfl⟩
    exact ⟨name, hn, i, hi, rfl⟩

theorem applyPairs_apply (x : Nat) (v : String) :
    ∀ (ps : List (Nat × String)) (hm : Nat → String),
      (∀ p ∈ ps, p.1 = x → p.2 = v) →
      applyPairs hm ps x = if ps.any (fun p => p.1 == x) then v else hm x := by
  intro ps
  induction ps with
  | nil => intro hm _; simp [applyPairs]
  | cons p rest ih =>
    intro hm hv
    have hstep : applyPairs hm (p :: rest) = applyPairs (Function.update hm p.1 p.2) rest := rfl
    rw [hstep, ih (Function.update hm p.1 p.2)
      (fun q hq hqx => hv q (List.mem_cons_of_mem p hq) hqx)]
    by_cases hany : rest.any (fun q => q.1 == x)
    · rw [if_pos hany, if_pos (by simp [List.any_cons, hany])]
    · rw [if_neg hany]
      rw [Function.update_apply]
      by_cases hpx : x = p.1
      · rw [if_pos hpx]
        rw [if_pos (by simp [List.any_cons, hpx.symm])]
        exact hv p (List.mem_cons_self p rest) hpx.symm
      · rw [if_neg hpx]
        rw [if_neg (by
          simp only [List.any_cons, Bool.or_eq_true, beq_iff_eq]
          push_neg
          exact ⟨fun h => hpx h.symm, by simpa using hany⟩)]

theorem applyPairs_perm_eq {P1 P2 : List (Nat × String)} (hp : P1.Perm P2)
    (huniq : ∀ p ∈ P1, ∀ q ∈ P1, p.1 = q.1 → p.2 = q.2) (hm0 : Nat → String) (x : Nat) :
    applyPairs hm0 P1 x = applyPairs hm0 P2 x := by
  by_cases hany : P1.any (fun p => p.1 == x)
  · obtain ⟨p0, hp0mem, hp0⟩ := List.any_eq_true.mp hany
    simp only [beq_iff_eq] at hp0
    have hany2 : P2.any (fun p => p.1 == x) = true :=
      List.any_eq_true.mpr ⟨p0, hp.mem_iff.mp hp0mem, by simp [hp0]⟩
    have h1 := applyPairs_apply x p0.2 P1 hm0
      (fun p hp1 hpx => huniq p hp1 p0 hp0mem (by rw [hpx, hp0]))
    have h2 := applyPairs_apply x p0.2 P2 hm0
      (fun p hp2 hpx => huniq p (hp.mem_iff.mpr hp2) p0 hp0mem (by rw [hpx, hp0]))
    rw [h1, h2, if_pos hany, if_pos hany2]
  · have hany2 : ¬ P2.any (fun p => p.1 == x) = true := by
      intro hc
      obtain ⟨p0, hpm, hpx⟩ := List.any_eq_true.mp hc
      exact hany (List.any_eq_true.mpr ⟨p0, hp.mem_iff.mpr hpm, hpx⟩)
    have h1 := applyPairs_apply x "" P1 hm0
      (fun p hp1 hpx => absurd (List.any_eq_true.mpr
        ⟨p, hp1, by simp only [beq_iff_eq]; exact hpx⟩) hany)
    have h2 := applyPairs_apply x "" P2 hm0
      (fun p hp2 hpx => absurd (List.any_eq_true.mpr
        ⟨p, hp2, by simp only [beq_iff_eq]; exact hpx⟩) hany2)
    rw [h1, h2, if_neg hany, if_neg hany2]

theorem addAll_some_spec :
    ∀ (parts : List (List String)) (m m' : Map), m.addAll parts = some m' →
      m'.hash = m.hash ∧ m'.replicas = m.replicas ∧
      m'.prefixTableExpansion = m.prefixTableExpansion ∧
      m'.keys.Perm (m.keys ++ (pairsOf m.hash m.replicas parts.flatten).map Prod.fst) ∧
      m'.hashMap = applyPairs m.hashMap (pairsOf m.hash m.replicas parts.flatten) ∧
      ((parts = [] ∧ m' = m) ∨
        (m'.keys.Sorted (· ≤ ·) ∧ m'.TableWF ∧ m'.keys ≠ [])) := by
  intro parts
  induction parts with
  | nil =>
    intro m m' h
    rw [Map.addAll, List.foldlM_nil] at h
    obtain rfl : m = m' := by simpa using h
    refine ⟨rfl, rfl, rfl, ?_, ?_, Or.inl ⟨rfl, rfl⟩⟩
    · have h0 : pairsOf m.hash m.replicas (([] : List (List String)).flatten) = [] := rfl
      rw [h0, List.map_nil, List.append_nil]
    · have h0 : pairsOf m.hash m.replicas (([] : List (List String)).flatten) = [] := rfl
      rw [h0]
      rfl
  | cons q rest ih =>
    intro m m' h
    rw [Map.addAll, List.foldlM_cons] at h
    rcases hadd : m.add q with _ | mid
    · rw [hadd] at h
      simp at h
    · rw [hadd] at h
      obtain ⟨hh, hr, hE, hkeys, hhm, hkne, hshift, htable⟩ := Map.add_some m q mid hadd
      obtain ⟨ih1, ih2, ih3, ih4, ih5, ih6⟩ :=
        ih mid m' (by rw [Map.addAll]; exact h)
      have hmidkeys : mid.keys.Perm (m.keys ++ (pairsOf m.hash m.replicas q).map Prod.fst) := by
        rw [hkeys, insertAll_fst]
        exact List.perm_insertionSort (· ≤ ·) _
      refine ⟨by rw [ih1, hh], by rw [ih2, hr], by rw [ih3, hE], ?_, ?_, ?_⟩
      · rw [hh, hr] at ih4
        have hflat : pairsOf m.hash m.replicas ((q :: rest).flatten)
            = pairsOf m.hash m.replicas q ++ pairsOf m.hash m.replicas rest.flatten := by
          rw [List.flatten_cons, pairsOf_append]
        rw [hflat, List.map_append, ← List.append_assoc]
        exact ih4.trans (hmidkeys.append_right _)
      · rw [ih5, hh, hr, hhm, insertAll_snd]
        rw [List.flatten_cons, pairsOf_append, applyPairs_append]
      · rcases ih6 with ⟨hrestnil, rfl⟩ | hright
        · exact Or.inr ⟨by rw [hkeys]; exact List.sorted_insertionSort (· ≤ ·) _,
            ⟨_, rfl, hshift, htable⟩, hkne⟩
        · exact Or.inr hright

/-- C4 counterexample: with a constant (colliding) hash, two rings built
from the same final member set {"a", "b"} in opposite orders answer
differently: the shared virtual-node hash ends up mapped to whichever
member was inserted last. -/
theorem c4_counterexample :
    [["a"], ["b"]].flatten.Perm [["b"], ["a"]].flatten ∧
    mapPermA.get "k" = "b" ∧ mapPermB.get "k" = "a" ∧
    mapPermA.get "k" ≠ mapPermB.get "k" :=
  ⟨by decide, by decide, by decide, by decide⟩

/-- C4 amended: two rings built with the same hash function and replica
count from the same final member multiset — regardless of the partition of
members into `Add` calls and of insertion order — answer identically for
every key, provided the hash gives virtual nodes of distinct members
distinct values (no cross-member virtual-node hash collision; the
counterexample shows the claim fails without this proviso). -/
theorem c4_amended_perm_get_eq (r : Int) (E : Nat) (fn : String → Nat)
    (parts1 parts2 : List (List String)) (m1 m2 : Map)
    (hcoll : ∀ i < r.toNat, ∀ j < r.toNat, ∀ n1 ∈ parts1.flatten, ∀ n2 ∈ parts1.flatten,
      fn (toString i ++ n1) = fn (toString j ++ n2) → n1 = n2)
    (hperm : parts1.flatten.Perm parts2.flatten)
    (h1 : (Map.new r E fn).addAll parts1 = some m1)
    (h2 : (Map.new r E fn).addAll parts2 = some m2) :
    ∀ key, m1.get key = m2.get key := by
  obtain ⟨a1hash, a1r, a1E, a1keys, a1hm, a1last⟩ := addAll_some_spec parts1 _ m1 h1
  obtain ⟨a2hash, a2r, a2E, a2keys, a2hm, a2last⟩ := addAll_some_spec parts2 _ m2 h2
  simp only [Map.new, List.nil_append] at a1hash a1r a1E a1keys a1hm a2hash a2r a2E a2keys a2hm
  have hpairs : (pairsOf fn r parts1.flatten).Perm (pairsOf fn r parts2.flatten) :=
    hperm.flatMap_right _
  have huniq : ∀ p ∈ pairsOf fn r parts1.flatten, ∀ q ∈ pairsOf fn r parts1.flatten,
      p.1 = q.1 → p.2 = q.2 := by
    intro p hp q hq hpq
    obtain ⟨n1, hn1, i, hi, rfl⟩ := mem_pairsOf.mp hp
    obtain ⟨n2, hn2, j, hj, rfl⟩ := mem_pairsOf.mp hq
    exact hcoll i hi j hj n1 hn1 n2 hn2 hpq
  have hmapeq : m1.hashMap = m2.hashMap := by
    rw [a1hm, a2hm]
    funext x
    exact applyPairs_perm_eq hpairs huniq _ x
  have hkeysperm : m1.keys.Perm m2.keys :=
    a1keys.trans ((hpairs.map Prod.fst).trans a2keys.symm)
  rcases a1last with ⟨hp1nil, rfl⟩ | ⟨hsort1, htw1, hkne1⟩
  · -- no Add ever ran on ring 1: the pair multiset is empty, so ring 2
    -- cannot have run a successful Add either
    rcases a2last with ⟨hp2nil, rfl⟩ | ⟨_, _, hkne2⟩
    · intro key
      rfl
    · exfalso
      apply hkne2
      have hnil1 : parts1.flatten = [] := by rw [hp1nil]; rfl
      have hpairs2 : pairsOf fn r parts2.flatten = [] := by
        have := hpairs
        rw [hnil1] at this
        have h0 : pairsOf fn r ([] : List String) = [] := rfl
        rw [h0] at this
        exact this.symm.eq_nil
      rw [hpairs2, List.map_nil] at a2keys
      exact a2keys.eq_nil
  · rcases a2last with ⟨hp2nil, rfl⟩ | ⟨hsort2, htw2, hkne2⟩
    · exfalso
      apply hkne1
      have hnil2 : parts2.flatten = [] := by rw [hp2nil]; rfl
      have hpairs1 : pairsOf fn r parts1.flatten = [] := by
        have := hpairs
        rw [hnil2] at this
        have h0 : pairsOf fn r ([] : List String) = [] := rfl
        rw [h0] at this
        exact this.eq_nil
      rw [hpairs1, List.map_nil] at a1keys
      exact a1keys.eq_nil
    · have hkeyseq : m1.keys = m2.keys :=
        List.eq_of_perm_of_sorted hkeysperm hsort1 hsort2
      obtain ⟨bits1, hbits1, hshift1, htable1⟩ := htw1
      obtain ⟨bits2, hbits2, hshift2, htable2⟩ := htw2
      have hbitseq : bits1 = bits2 := by
        rw [hbits1, hbits2, hkeyseq, a1E, a2E]
      have hshifteq : m1.prefixShift = m2.prefixShift := by
        rw [hshift1, hshift2, hbitseq]
      have hm12 : m1 = m2 := by
        refine Map.eq_of_fields (by rw [a1hash, a2hash]) (by rw [a1r, a2r])
          (by rw [a1E, a2E]) hkeyseq hmapeq hshifteq ?_
        rw [htable1, htable2, hkeyseq, hmapeq, hshifteq, hbitseq]
      intro key
      rw [hm12]

/-- Witness for C4 amended: {"a", "bb"} with the length hash, partitioned
as [["a"], ["bb"]] versus [["bb", "a"]]; the virtual-node strings "0a" and
"0bb" have distinct lengths, so there is no cross-member collision, and
both rings agree on a sample key. -/
theorem c4_amended_perm_get_eq_witness :
    (∀ i < (1 : Int).toNat, ∀ j < (1 : Int).toNat,
      ∀ n1 ∈ [["a"], ["bb"]].flatten, ∀ n2 ∈ [["a"], ["bb"]].flatten,
      fnLen (toString i ++ n1) = fnLen (toString j ++ n2) → n1 = n2) ∧
    [["a"], ["bb"]].flatten.Perm [["bb", "a"]].flatten ∧
    mapPermC.get "zz" = mapPermD.get "zz" ∧ mapPermC.get "zz" = "a" :=
  ⟨by decide, by decide,
   c4_amended_perm_get_eq 1 6 fnLen [["a"], ["bb"]] [["bb", "a"]] mapPermC mapPermD
     (by decide) (by decide) rfl rfl "zz",
   by decide⟩

end ConsistentHash

namespace Grpc

theorem Pool.set_some (p : Pool) (lst : List String) (q : Pool)
    (h : p.set lst = some q) :
    ∃ mm, p.peers.add lst = some mm ∧ q = { p with peers := mm, getters := lst } := by
  rw [Pool.set] at h
  rcases hadd : p.peers.add lst with _ | mm
  · rw [hadd] at h
    simp at h
  · rw [hadd] at h
    simp only [Option.some.injEq] at h
    exact ⟨mm, rfl, h.symm⟩

/-- C10: `Set` only accumulates ring members (it calls `Add` without
rebuilding) while replacing the getters map with the new peer list, so
after `Set(p1); Set(p2)`, a key whose ring owner is a member of `p1`
removed in `p2` (and different from `self`) makes `PickPeer` answer
`(nil, true)`: an affirmative peer answer with a nil transport handle. -/
theorem c10_pickPeer_nil_handle (p0 q1 q2 : Pool) (l1 l2 : List String) (key : String)
    (_h1 : p0.set l1 = some q1) (h2 : q1.set l2 = some q2)
    (hnot : q2.peers.get key ∉ l2) (hself : q2.peers.get key ≠ q2.self) :
    q2.pickPeer key = (none, true) := by
  obtain ⟨mm, hadd, rfl⟩ := Pool.set_some q1 l2 q2 h2
  obtain ⟨_, _, _, _, _, hkne, _, _⟩ := ConsistentHash.Map.add_some _ _ _ hadd
  have hempty : mm.isEmpty = false := by
    rw [ConsistentHash.Map.isEmpty]
    simpa using hkne
  rw [Pool.pickPeer, if_neg (by simp [hempty]), if_pos hself, if_neg hnot]

/-- Witness for C10: the ring holds virtual nodes of "a" (10) and "b"
(20); the key hashes to 1 so its owner is "a", which the second `Set`
removed from the getters map — `PickPeer` answers `(none, true)`. -/
theorem c10_pickPeer_nil_handle_witness :
    poolDemo2.peers.get "k" = "a" ∧ poolDemo2.getters = ["b"] ∧
    poolDemo2.pickPeer "k" = (none, true) :=
  ⟨by decide, rfl,
   c10_pickPeer_nil_handle poolDemo0 poolDemo1 poolDemo2 ["a"] ["b"] "k" rfl rfl
     (by decide) (by decide)⟩

end Grpc

namespace RingGetN

theorem getNLoop_eq_selectWalk (m : MapN) (n : Int)
    (accept : List String → String → Bool) :
    ∀ (rem hk : Nat) (out : List String),
      getNLoop m n accept hk rem out
        = selectWalk accept n out ((slotChain m hk rem).map (lookup m.hashMap)) := by
  intro rem
  induction rem with
  | zero => intro hk out; rfl
  | succ rem ih =>
    intro hk out
    simp only [getNLoop, slotChain, List.map_cons, selectWalk]
    by_cases hlen : (out.length : Int) < n
    · rw [if_pos hlen, if_pos hlen]
      exact ih (getKeyFromHash m (hk + 1)) _
    · rw [if_neg hlen, if_neg hlen]

/-- C7: on a non-empty ring with `n ≥ 1`, `GetN` equals the spec-side
walk: it starts from the primary member owning the key, visits the
successive ring slots in order, appends a candidate member only when
`accept(alreadyChosen, candidate)` is true, and stops exactly when `n`
members are chosen or the ring (its `ringLength` slots) is exhausted. -/
theorem c7_getN_eq_specGetN (m : MapN) (key : String) (n : Int)
    (accept : List String → String → Bool)
    (_hne : m.keys ≠ []) (_hn : 1 ≤ n) :
    getN m key n accept = specGetN m key n accept := by
  rw [getN, specGetN]
  by_cases hcond : m.keys.length = 0 ∨ n < 1
  · rw [if_pos hcond, if_pos hcond]
  · rw [if_neg hcond, if_neg hcond]
    exact getNLoop_eq_selectWalk m n accept (m.hashMap.length - 1) _ _

/-- Witness for C7: the `TestGetN` ring; key "1237" (hash 1237) is owned
by "1337", and walking the ring accepts "1337", "1723", "6". -/
theorem c7_getN_eq_specGetN_witness :
    mapNDemo.keys ≠ [] ∧ (1 : Int) ≤ 3 ∧
    getN mapNDemo "1237" 3 AcceptAny = specGetN mapNDemo "1237" 3 AcceptAny ∧
    getN mapNDemo "1237" 3 AcceptAny = ["1337", "1723", "6"] :=
  ⟨by decide, by norm_num,
   c7_getN_eq_specGetN mapNDemo "1237" 3 AcceptAny (by decide) (by norm_num),
   by decide⟩

end RingGetN

end Groupcache
